import Mathlib

/-!
Verification of the Elevation Gap-Fill Interpolation Engine of `server.py`
(`get_elevation_profile`, lines 205–271).

The engine classifies each sampled route point into a concrete elevation or
an invalid marker, then fills every invalid position by scanning for the
nearest valid neighbours and applying a sea-level / linear-interpolation
policy.  Elevations are modelled as rationals; the invalid marker
(`None` in the source) is modelled as `Option.none`.
-/

namespace Strekoza

/-- Outcome of calling `srtm_data.get_altitude` on one route point:
either an exception was raised (`err`), or it returned `None` or a value
(`ok`).  This models the `try`/`except` block at lines 215–225. -/
inductive SampleResult where
  | err : SampleResult
  | ok : Option ℚ → SampleResult
deriving DecidableEq, Repr

/-- First pass of `get_elevation_profile` (lines 215–225): an exception,
a `None` return, or a negative raw value all become the invalid marker
`none`; any other value is kept unchanged. -/
def classify : SampleResult → Option ℚ
  | .err => none
  | .ok none => none
  | .ok (some v) => if v < 0 then none else some v

/-- The backward scan of the second pass (lines 233–237): starting at
`i - 1` and walking down to index `0`, return the first valid value with
its index. -/
def findPrev (raw : List (Option ℚ)) : Nat → Option (ℚ × Nat)
  | 0 => none
  | j + 1 =>
    match raw.get? j with
    | some (some v) => some (v, j)
    | _ => findPrev raw j

/-- Forward scan over a suffix: return the first valid value in the list,
reporting its index as `j` plus the offset into the list. -/
def firstValid : List (Option ℚ) → Nat → Option (ℚ × Nat)
  | [], _ => none
  | none :: rest, j => firstValid rest (j + 1)
  | some v :: _, j => some (v, j)

/-- The forward scan of the second pass (lines 242–246): starting at
`i + 1` and walking up to the end of the list, return the first valid
value with its index. -/
def findNext (raw : List (Option ℚ)) (i : Nat) : Option (ℚ × Nat) :=
  firstValid (raw.drop (i + 1)) (i + 1)

/-- The resolution policy for one invalid position `i`
(lines 249–267): sea-level heuristic, linear interpolation, one-sided
hold, or `0` when no valid value exists at all. -/
def fillValue (raw : List (Option ℚ)) (i : Nat) : ℚ :=
  match findPrev raw i, findNext raw i with
  | some (prev_val, prev_idx), some (next_val, next_idx) =>
    if prev_val < 5 ∧ next_val < 5 then 0
    else prev_val + (next_val - prev_val) *
      (((i : ℚ) - (prev_idx : ℚ)) / ((next_idx : ℚ) - (prev_idx : ℚ)))
  | some (prev_val, _), none => if prev_val < 5 then 0 else prev_val
  | none, some (next_val, _) => if next_val < 5 then 0 else next_val
  | none, none => 0

/-- The entry of the output at position `i` (lines 228–269): a valid
value is copied unchanged, an invalid one is resolved by `fillValue`. -/
def fillEntry (raw : List (Option ℚ)) (i : Nat) : ℚ :=
  match raw.get? i with
  | some (some v) => v
  | _ => fillValue raw i

/-- The whole second pass (lines 228–269): one output entry per input
position. -/
def fill (raw : List (Option ℚ)) : List ℚ :=
  (List.range raw.length).map (fillEntry raw)

/-- Classify every sampler outcome of a route (the first pass applied
pointwise, lines 212–225). -/
def classify_all (samples : List SampleResult) : List (Option ℚ) :=
  samples.map classify

/-- `get_elevation_profile` (lines 205–271), for an initialized data
collection: sample every route point, classify, and gap-fill.  The
sampler is a parameter standing for `srtm_data.get_altitude` together
with its possible failures. -/
def get_elevation_profile (sampler : ℚ × ℚ → SampleResult)
    (route : List (ℚ × ℚ)) : List ℚ :=
  fill (classify_all (route.map sampler))

/-- The largest valid value of a classified sequence (`0` when there is
none): the fold of `max` over the valid entries. -/
def validMax (raw : List (Option ℚ)) : ℚ :=
  (raw.filterMap id).foldr max 0

/-! ## Basic facts about the scans -/

theorem findPrev_spec (raw : List (Option ℚ)) :
    ∀ i pv pj, findPrev raw i = some (pv, pj) →
      pj < i ∧ raw.get? pj = some (some pv) := by
  intro i
  induction i with
  | zero => intro pv pj h; simp [findPrev] at h
  | succ j ih =>
    intro pv pj h
    unfold findPrev at h
    rcases hj : raw.get? j with _ | o
    · rw [hj] at h
      rcases ih pv pj h with ⟨h1, h2⟩
      exact ⟨Nat.lt_succ_of_lt h1, h2⟩
    · rcases o with _ | v
      · rw [hj] at h
        rcases ih pv pj h with ⟨h1, h2⟩
        exact ⟨Nat.lt_succ_of_lt h1, h2⟩
      · rw [hj] at h
        cases h
        exact ⟨Nat.lt_succ_self j, hj⟩

theorem firstValid_spec (l : List (Option ℚ)) :
    ∀ j v k, firstValid l j = some (v, k) →
      j ≤ k ∧ l.get? (k - j) = some (some v) := by
  induction l with
  | nil => intro j v k h; simp [firstValid] at h
  | cons o rest ih =>
    intro j v k h
    cases o with
    | none =>
      rw [firstValid] at h
      rcases ih (j + 1) v k h with ⟨h1, h2⟩
      refine ⟨Nat.le_of_succ_le h1, ?_⟩
      have hk : k - j = (k - (j + 1)) + 1 := by omega
      rw [hk]
      simpa using h2
    | some w =>
      rw [firstValid] at h
      cases h
      exact ⟨Nat.le_refl j, by simp⟩

theorem findNext_spec (raw : List (Option ℚ)) (i : Nat) (nv : ℚ) (nj : Nat) :
    findNext raw i = some (nv, nj) → i < nj ∧ raw.get? nj = some (some nv) := by
  intro h
  rcases firstValid_spec (raw.drop (i + 1)) (i + 1) nv nj h with ⟨h1, h2⟩
  rw [List.get?_drop] at h2
  have : i + 1 + (nj - (i + 1)) = nj := by omega
  rw [this] at h2
  exact ⟨h1, h2⟩

theorem fill_length (raw : List (Option ℚ)) : (fill raw).length = raw.length := by
  simp [fill]

theorem fill_get (raw : List (Option ℚ)) (i : Nat) (h : i < raw.length) :
    (fill raw).get? i = some (fillEntry raw i) := by
  simp only [fill, List.get?_eq_getElem?, List.getElem?_map]
  rw [List.getElem?_range h]
  rfl

theorem mem_fill (raw : List (Option ℚ)) (x : ℚ) :
    x ∈ fill raw ↔ ∃ i, i < raw.length ∧ fillEntry raw i = x := by
  simp [fill, List.mem_map, List.mem_range]

/-! ## Numeric bounds for the interpolation branch -/

theorem weight_nonneg (pj i nj : Nat) (h1 : pj < i) (h2 : i < nj) :
    0 ≤ ((i : ℚ) - (pj : ℚ)) / ((nj : ℚ) - (pj : ℚ)) := by
  have hp : (pj : ℚ) < (i : ℚ) := by exact_mod_cast h1
  have hn : (i : ℚ) < (nj : ℚ) := by exact_mod_cast h2
  apply div_nonneg <;> linarith

theorem weight_le_one (pj i nj : Nat) (h1 : pj < i) (h2 : i < nj) :
    ((i : ℚ) - (pj : ℚ)) / ((nj : ℚ) - (pj : ℚ)) ≤ 1 := by
  have hp : (pj : ℚ) < (i : ℚ) := by exact_mod_cast h1
  have hn : (i : ℚ) < (nj : ℚ) := by exact_mod_cast h2
  rw [div_le_one (by linarith)]
  linarith

theorem interp_ge (pv nv w : ℚ) (h0 : 0 ≤ w) (h1 : w ≤ 1) :
    min pv nv ≤ pv + (nv - pv) * w := by
  rcases le_total pv nv with h | h
  · rw [min_eq_left h]; nlinarith
  · rw [min_eq_right h]; nlinarith

theorem interp_le (pv nv w : ℚ) (h0 : 0 ≤ w) (h1 : w ≤ 1) :
    pv + (nv - pv) * w ≤ max pv nv := by
  rcases le_total pv nv with h | h
  · rw [max_eq_right h]; nlinarith
  · rw [max_eq_left h]; nlinarith

/-- Lower bound on the value produced for one invalid position, assuming
every valid value of the classified sequence is at least `lo ≤ 0`. -/
theorem fillValue_nonneg (raw : List (Option ℚ)) (i : Nat)
    (hvalid : ∀ j v, raw.get? j = some (some v) → 0 ≤ v) :
    0 ≤ fillValue raw i := by
  unfold fillValue
  rcases hp : findPrev raw i with _ | ⟨pv, pj⟩ <;>
    rcases hn : findNext raw i with _ | ⟨nv, nj⟩
  · simp
  · obtain ⟨hn1, hn2⟩ := findNext_spec raw i nv nj hn
    have := hvalid nj nv hn2
    dsimp only
    split <;> [simp; linarith]
  · obtain ⟨hp1, hp2⟩ := findPrev_spec raw i pv pj hp
    have := hvalid pj pv hp2
    dsimp only
    split <;> [simp; linarith]
  · obtain ⟨hp1, hp2⟩ := findPrev_spec raw i pv pj hp
    obtain ⟨hn1, hn2⟩ := findNext_spec raw i nv nj hn
    have hpv := hvalid pj pv hp2
    have hnv := hvalid nj nv hn2
    dsimp only
    split
    · simp
    · have hw0 := weight_nonneg pj i nj hp1 hn1
      have hw1 := weight_le_one pj i nj hp1 hn1
      have := interp_ge pv nv (((i : ℚ) - (pj : ℚ)) / ((nj : ℚ) - (pj : ℚ))) hw0 hw1
      have : min pv nv ≥ 0 := le_min hpv hnv
      nlinarith [interp_ge pv nv (((i : ℚ) - (pj : ℚ)) / ((nj : ℚ) - (pj : ℚ))) hw0 hw1,
        le_min hpv hnv]

/-- Upper bound on the value produced for one invalid position, by any
nonnegative upper bound `M` of the valid values. -/
theorem fillValue_le (raw : List (Option ℚ)) (i : Nat) (M : ℚ) (hM : 0 ≤ M)
    (hvalid : ∀ j v, raw.get? j = some (some v) → v ≤ M) :
    fillValue raw i ≤ M := by
  unfold fillValue
  rcases hp : findPrev raw i with _ | ⟨pv, pj⟩ <;>
    rcases hn : findNext raw i with _ | ⟨nv, nj⟩
  · simpa using hM
  · obtain ⟨hn1, hn2⟩ := findNext_spec raw i nv nj hn
    have := hvalid nj nv hn2
    dsimp only
    split <;> [simpa using hM; linarith]
  · obtain ⟨hp1, hp2⟩ := findPrev_spec raw i pv pj hp
    have := hvalid pj pv hp2
    dsimp only
    split <;> [simpa using hM; linarith]
  · obtain ⟨hp1, hp2⟩ := findPrev_spec raw i pv pj hp
    obtain ⟨hn1, hn2⟩ := findNext_spec raw i nv nj hn
    have hpv := hvalid pj pv hp2
    have hnv := hvalid nj nv hn2
    dsimp only
    split
    · simpa using hM
    · have hw0 := weight_nonneg pj i nj hp1 hn1
      have hw1 := weight_le_one pj i nj hp1 hn1
      have h1 := interp_le pv nv (((i : ℚ) - (pj : ℚ)) / ((nj : ℚ) - (pj : ℚ))) hw0 hw1
      have h2 : max pv nv ≤ M := max_le hpv hnv
      linarith

theorem fillEntry_nonneg (raw : List (Option ℚ)) (i : Nat)
    (hvalid : ∀ j v, raw.get? j = some (some v) → 0 ≤ v) :
    0 ≤ fillEntry raw i := by
  unfold fillEntry
  rcases h : raw.get? i with _ | o
  · exact fillValue_nonneg raw i hvalid
  · rcases o with _ | v
    · exact fillValue_nonneg raw i hvalid
    · exact hvalid i v h

theorem fillEntry_le (raw : List (Option ℚ)) (i : Nat) (M : ℚ) (hM : 0 ≤ M)
    (hvalid : ∀ j v, raw.get? j = some (some v) → v ≤ M) :
    fillEntry raw i ≤ M := by
  unfold fillEntry
  rcases h : raw.get? i with _ | o
  · exact fillValue_le raw i M hM hvalid
  · rcases o with _ | v
    · exact fillValue_le raw i M hM hvalid
    · exact hvalid i v h

theorem classify_nonneg_val (s : SampleResult) (v : ℚ) (h : classify s = some v) :
    0 ≤ v := by
  rcases s with _ | o
  · simp [classify] at h
  · rcases o with _ | w
    · simp [classify] at h
    · simp only [classify] at h
      by_cases hw : w < 0
      · rw [if_pos hw] at h; cases h
      · rw [if_neg hw] at h
        cases h
        exact not_lt.mp hw

theorem classify_all_nonneg (samples : List SampleResult) (j : Nat) (v : ℚ)
    (h : (classify_all samples).get? j = some (some v)) : 0 ≤ v := by
  unfold classify_all at h
  rcases hs : samples.get? j with _ | s
  · rw [List.get?_map, hs] at h; cases h
  · rw [List.get?_map, hs] at h
    simp only [Option.map_some'] at h
    exact classify_nonneg_val s v (by injection h)

theorem get?_some_lt_length {α : Type} (l : List α) (i : Nat) (a : α)
    (h : l.get? i = some a) : i < l.length := by
  by_contra hcon
  rw [List.get?_eq_none.mpr (le_of_not_lt hcon)] at h
  cases h

theorem findPrev_all_invalid (raw : List (Option ℚ)) (h : ∀ x ∈ raw, x = none) :
    ∀ i, findPrev raw i = none := by
  intro i
  induction i with
  | zero => rfl
  | succ j ih =>
    unfold findPrev
    rcases hj : raw.get? j with _ | o
    · exact ih
    · have ho : o = none := h o (List.get?_mem hj)
      subst ho
      exact ih

theorem firstValid_all_none (l : List (Option ℚ)) (h : ∀ x ∈ l, x = none) :
    ∀ j, firstValid l j = none := by
  induction l with
  | nil => intro j; rfl
  | cons o rest ih =>
    intro j
    have ho : o = none := h o (List.mem_cons_self o rest)
    subst ho
    rw [firstValid]
    exact ih (fun x hx => h x (List.mem_cons_of_mem _ hx)) (j + 1)

theorem findNext_all_invalid (raw : List (Option ℚ)) (h : ∀ x ∈ raw, x = none)
    (i : Nat) : findNext raw i = none :=
  firstValid_all_none _ (fun x hx => h x (List.drop_subset _ _ hx)) (i + 1)

/-! ## The claims -/

/-- C2: whenever position `i` is invalid, its nearest valid neighbours are
`prev` at `prev_idx` (backward scan) and `next` at `next_idx` (forward
scan), and it is not the case that both are below 5, the output at `i` is
the linear interpolation `prev + (next − prev) · (i − prev_idx)/(next_idx −
prev_idx)`. -/
theorem fill_linear_interpolation (raw : List (Option ℚ)) (i : Nat)
    (pv nv : ℚ) (pj nj : Nat)
    (hi : raw.get? i = some none)
    (hp : findPrev raw i = some (pv, pj))
    (hn : findNext raw i = some (nv, nj))
    (hlow : ¬(pv < 5 ∧ nv < 5)) :
    (fill raw).get? i =
      some (pv + (nv - pv) * (((i : ℚ) - (pj : ℚ)) / ((nj : ℚ) - (pj : ℚ)))) := by
  rw [fill_get raw i (get?_some_lt_length raw i none hi)]
  unfold fillEntry
  rw [hi]
  show some (fillValue raw i) = _
  unfold fillValue
  rw [hp, hn]
  show some (if pv < 5 ∧ nv < 5 then 0 else _) = _
  rw [if_neg hlow]

/-- C2 witness: the classified sequence `[Valid 100, Invalid, Invalid,
Valid 130]` is interpolated to `[100, 110, 120, 130]`. -/
theorem fill_linear_interpolation_witness :
    (fill [some 100, none, none, some 130]).get? 1 =
      some (100 + (130 - 100) * (((1 : ℚ) - (0 : ℚ)) / ((3 : ℚ) - (0 : ℚ)))) ∧
    fill [some 100, none, none, some 130] = [100, 110, 120, 130] := by
  constructor
  · exact fill_linear_interpolation [some 100, none, none, some 130] 1 100 130 0 3
      (by rfl) (by rfl) (by rfl) (by norm_num)
  · norm_num [fill, fillEntry, fillValue, findPrev, findNext, firstValid,
      List.range_succ]

/-- C5: whenever position `i` is invalid and both nearest valid
neighbours exist and are below 5 meters, the output at `i` is `0`. -/
theorem fill_sea_level (raw : List (Option ℚ)) (i : Nat)
    (pv nv : ℚ) (pj nj : Nat)
    (hi : raw.get? i = some none)
    (hp : findPrev raw i = some (pv, pj))
    (hn : findNext raw i = some (nv, nj))
    (hlow : pv < 5 ∧ nv < 5) :
    (fill raw).get? i = some 0 := by
  rw [fill_get raw i (get?_some_lt_length raw i none hi)]
  unfold fillEntry
  rw [hi]
  show some (fillValue raw i) = _
  unfold fillValue
  rw [hp, hn]
  show some (if pv < 5 ∧ nv < 5 then 0 else _) = _
  rw [if_pos hlow]

/-- C5 witness: `[Valid 2, Invalid, Valid 3]` yields `[2, 0, 3]`. -/
theorem fill_sea_level_witness :
    (fill [some 2, none, some 3]).get? 1 = some 0 ∧
    fill [some 2, none, some 3] = [2, 0, 3] := by
  constructor
  · exact fill_sea_level [some 2, none, some 3] 1 2 3 0 2
      (by rfl) (by rfl) (by rfl) (by norm_num)
  · decide

/-- C6: whenever position `i` is invalid and only one side has a valid
neighbour, the output at `i` holds that neighbour flat, except that a
neighbour below 5 meters is replaced by `0`. -/
theorem fill_one_sided (raw : List (Option ℚ)) (i : Nat)
    (hi : raw.get? i = some none) :
    (∀ pv pj, findPrev raw i = some (pv, pj) → findNext raw i = none →
      (fill raw).get? i = some (if pv < 5 then 0 else pv)) ∧
    (∀ nv nj, findPrev raw i = none → findNext raw i = some (nv, nj) →
      (fill raw).get? i = some (if nv < 5 then 0 else nv)) := by
  constructor
  · intro pv pj hp hn
    rw [fill_get raw i (get?_some_lt_length raw i none hi)]
    unfold fillEntry
    rw [hi]
    show some (fillValue raw i) = _
    unfold fillValue
    rw [hp, hn]
  · intro nv nj hp hn
    rw [fill_get raw i (get?_some_lt_length raw i none hi)]
    unfold fillEntry
    rw [hi]
    show some (fillValue raw i) = _
    unfold fillValue
    rw [hp, hn]

/-- C6 witness: `[Invalid, Invalid, Valid 50]` yields `[50, 50, 50]`. -/
theorem fill_one_sided_witness :
    (fill [none, none, some 50]).get? 0 = some (if (50 : ℚ) < 5 then 0 else 50) ∧
    fill [none, none, some 50] = [50, 50, 50] := by
  constructor
  · exact (fill_one_sided [none, none, some 50] 0 (by rfl)).2 50 2 (by rfl) (by rfl)
  · decide

/-- C7: a classified sequence with no valid value at all is filled with
`0` at every position. -/
theorem fill_all_invalid (raw : List (Option ℚ)) (h : ∀ x ∈ raw, x = none) :
    fill raw = List.replicate raw.length 0 := by
  rw [List.eq_replicate]
  refine ⟨fill_length raw, ?_⟩
  intro b hb
  rcases (mem_fill raw b).mp hb with ⟨i, _, hE⟩
  rw [← hE]
  unfold fillEntry
  have hfv : fillValue raw i = 0 := by
    unfold fillValue
    rw [findPrev_all_invalid raw h i, findNext_all_invalid raw h i]
  rcases hg : raw.get? i with _ | o
  · exact hfv
  · have ho : o = none := h o (List.get?_mem hg)
    subst ho
    exact hfv

/-- C7 witness: `[Invalid, Invalid]` yields `[0, 0]`. -/
theorem fill_all_invalid_witness :
    fill [none, none] = List.replicate ([none, none] : List (Option ℚ)).length 0 :=
  fill_all_invalid [none, none] (by decide)

/-- C9: a valid position is copied unchanged by the gap-fill pass, at the
same index of the output. -/
theorem fill_preserves_valid (raw : List (Option ℚ)) (i : Nat) (v : ℚ)
    (h : raw.get? i = some (some v)) :
    (fill raw).get? i = some v := by
  rw [fill_get raw i (get?_some_lt_length raw i (some v) h)]
  unfold fillEntry
  rw [h]

/-- C9 witness: in `[Valid 7, Invalid, Valid 9]` the valid entries `7`
and `9` are returned unchanged at their own indices. -/
theorem fill_preserves_valid_witness :
    (fill [some 7, none, some 9]).get? 0 = some 7 ∧
    (fill [some 7, none, some 9]).get? 2 = some 9 :=
  ⟨fill_preserves_valid [some 7, none, some 9] 0 7 (by rfl),
   fill_preserves_valid [some 7, none, some 9] 2 9 (by rfl)⟩

/-- C1: the gap-fill pass returns one concrete elevation per route point:
the output has the route's length and every position up to that length
holds an actual number (no `None` marker can remain, the output entries
are plain rationals). -/
theorem get_elevation_profile_length (sampler : ℚ × ℚ → SampleResult)
    (route : List (ℚ × ℚ)) :
    (get_elevation_profile sampler route).length = route.length ∧
    ∀ i, i < route.length →
      ∃ v : ℚ, (get_elevation_profile sampler route).get? i = some v := by
  constructor
  · unfold get_elevation_profile classify_all
    rw [fill_length]
    simp
  · intro i hi
    refine ⟨fillEntry (classify_all (route.map sampler)) i, ?_⟩
    unfold get_elevation_profile
    apply fill_get
    unfold classify_all
    simpa using hi

/-- C1 witness: a two-point route whose sampler always fails still gets a
length-2, fully populated profile. -/
theorem get_elevation_profile_length_witness :
    (get_elevation_profile (fun _ => SampleResult.err) [(0, 0), (1, 1)]).length = 2 ∧
    ∃ v : ℚ,
      (get_elevation_profile (fun _ => SampleResult.err) [(0, 0), (1, 1)]).get? 0 =
        some v := by
  have h := get_elevation_profile_length (fun _ => SampleResult.err) [(0, 0), (1, 1)]
  exact ⟨by rw [h.1]; rfl, h.2 0 (by norm_num)⟩

/-- C3: every value of the returned elevation profile is non-negative; in
particular it is never the void sentinel `−32768`. -/
theorem get_elevation_profile_nonneg (sampler : ℚ × ℚ → SampleResult)
    (route : List (ℚ × ℚ)) :
    ∀ x ∈ get_elevation_profile sampler route, 0 ≤ x ∧ x ≠ (-32768 : ℚ) := by
  intro x hx
  have h0 : 0 ≤ x := by
    unfold get_elevation_profile at hx
    rcases (mem_fill _ x).mp hx with ⟨i, _, hE⟩
    rw [← hE]
    exact fillEntry_nonneg _ i (classify_all_nonneg (route.map sampler))
  refine ⟨h0, ?_⟩
  intro hc
  rw [hc] at h0
  norm_num at h0

/-- C3 witness: a single-point route sampled as a void gives the profile
`[0]`, whose entry is non-negative and not the sentinel. -/
theorem get_elevation_profile_nonneg_witness :
    0 ≤ (0 : ℚ) ∧ (0 : ℚ) ≠ (-32768 : ℚ) :=
  get_elevation_profile_nonneg (fun _ => SampleResult.ok none) [(0, 0)] 0 (by decide)

/-- C4: classification yields Invalid exactly for a sampler failure, a
missing value, or a negative raw value (the void sentinel `−32768` being
one such); any other raw value is kept unchanged, and it is then
non-negative. -/
theorem classify_correct (s : SampleResult) :
    (classify s = none ↔
      s = SampleResult.err ∨ s = SampleResult.ok none ∨
        ∃ v, s = SampleResult.ok (some v) ∧ v < 0) ∧
    (∀ v : ℚ, classify s = some v ↔ s = SampleResult.ok (some v) ∧ 0 ≤ v) ∧
    classify (SampleResult.ok (some (-32768))) = none := by
  refine ⟨?_, ?_, by norm_num [classify]⟩
  · rcases s with _ | o
    · simp [classify]
    · rcases o with _ | w
      · simp [classify]
      · by_cases hw : w < 0 <;> simp [classify, hw]
  · rcases s with _ | o
    · simp [classify]
    · rcases o with _ | w
      · simp [classify]
      · intro v
        by_cases hw : w < 0
        · simp [classify, hw]
          rintro rfl
          exact hw
        · simp [classify, hw]
          rintro rfl
          exact not_lt.mp hw

/-- C4 witness: a raw value of 7 stays valid unchanged, a raw value of −3
classifies as Invalid. -/
theorem classify_correct_witness :
    classify (SampleResult.ok (some 7)) = some 7 ∧
    classify (SampleResult.ok (some (-3))) = none :=
  ⟨((classify_correct (SampleResult.ok (some 7))).2.1 7).mpr ⟨rfl, by norm_num⟩,
   ((classify_correct (SampleResult.ok (some (-3)))).1).mpr
     (Or.inr (Or.inr ⟨-3, rfl, by norm_num⟩))⟩

/-- C8: per-point failures never propagate: an exception, a missing
value, or a negative sample each classify as Invalid, and for any sampler
whatsoever the profile is still a same-length sequence, fully populated
with concrete non-negative values. -/
theorem per_point_failures_absorbed (sampler : ℚ × ℚ → SampleResult)
    (route : List (ℚ × ℚ)) :
    classify SampleResult.err = none ∧
    classify (SampleResult.ok none) = none ∧
    (∀ v : ℚ, v < 0 → classify (SampleResult.ok (some v)) = none) ∧
    (get_elevation_profile sampler route).length = route.length ∧
    ∀ i, i < route.length →
      ∃ v : ℚ, 0 ≤ v ∧ (get_elevation_profile sampler route).get? i = some v := by
  refine ⟨rfl, rfl, ?_, ?_, ?_⟩
  · intro v hv
    simp [classify, hv]
  · unfold get_elevation_profile classify_all
    rw [fill_length]
    simp
  · intro i hi
    refine ⟨fillEntry (classify_all (route.map sampler)) i, ?_, ?_⟩
    · exact fillEntry_nonneg _ i (classify_all_nonneg (route.map sampler))
    · unfold get_elevation_profile
      apply fill_get
      unfold classify_all
      simpa using hi

/-- C8 witness: a route point whose sample is the negative reading −5 is
absorbed as Invalid and the call still yields a concrete non-negative
entry for it. -/
theorem per_point_failures_absorbed_witness :
    classify SampleResult.err = none ∧
    classify (SampleResult.ok (some (-5))) = none ∧
    ∃ v : ℚ, 0 ≤ v ∧
      (get_elevation_profile (fun _ => SampleResult.ok (some (-5))) [(0, 0)]).get? 0 =
        some v := by
  have h := per_point_failures_absorbed (fun _ => SampleResult.ok (some (-5))) [(0, 0)]
  exact ⟨h.1, h.2.2.1 (-5) (by norm_num), h.2.2.2.2 0 (by norm_num)⟩

/-! ## Facts about the maximum of the valid values -/

theorem foldr_max_nonneg (l : List ℚ) : 0 ≤ l.foldr max 0 := by
  induction l with
  | nil => simp
  | cons a t ih =>
    simp only [List.foldr_cons]
    exact le_max_of_le_right ih

theorem le_foldr_max (l : List ℚ) (v : ℚ) (hv : v ∈ l) : v ≤ l.foldr max 0 := by
  induction l with
  | nil => cases hv
  | cons a t ih =>
    simp only [List.foldr_cons]
    rcases List.mem_cons.mp hv with h | h
    · subst h; exact le_max_left _ _
    · exact le_trans (ih h) (le_max_right _ _)

theorem foldr_max_mem (l : List ℚ) (hne : l ≠ [])
    (hpos : ∀ v ∈ l, 0 ≤ v) : l.foldr max 0 ∈ l := by
  induction l with
  | nil => exact absurd rfl hne
  | cons a t ih =>
    rcases eq_or_ne t [] with ht | ht
    · subst ht
      simp only [List.foldr_cons, List.foldr_nil]
      rw [max_eq_left (hpos a (List.mem_cons_self a []))]
      exact List.mem_cons_self a []
    · have hm := ih ht (fun v hv => hpos v (List.mem_cons_of_mem a hv))
      simp only [List.foldr_cons]
      rcases max_cases a (t.foldr max 0) with ⟨he, _⟩ | ⟨he, _⟩
      · rw [he]; exact List.mem_cons_self a t
      · rw [he]; exact List.mem_cons_of_mem a hm

theorem mem_filterMap_id (raw : List (Option ℚ)) (v : ℚ) :
    v ∈ raw.filterMap id ↔ ∃ j, raw.get? j = some (some v) := by
  rw [List.mem_filterMap]
  constructor
  · rintro ⟨a, ha, hav⟩
    have : a = some v := hav
    subst this
    rcases List.mem_iff_get?.mp ha with ⟨j, hj⟩
    exact ⟨j, hj⟩
  · rintro ⟨j, hj⟩
    exact ⟨some v, List.get?_mem hj, rfl⟩

/-- C10: when a classified sequence holds at least one valid value, the
fold `validMax` is attained at a valid position and bounds every valid
value, and every entry of the gap-filled output lies in the closed
interval from `0` to `validMax` — gap-filling never manufactures a value
above the highest observed elevation. -/
theorem fill_bounded_by_validMax (samples : List SampleResult)
    (h : ∃ j v, (classify_all samples).get? j = some (some v)) :
    (∃ j v, (classify_all samples).get? j = some (some v) ∧
        validMax (classify_all samples) = v) ∧
    (∀ j v, (classify_all samples).get? j = some (some v) →
        v ≤ validMax (classify_all samples)) ∧
    ∀ x ∈ fill (classify_all samples),
      0 ≤ x ∧ x ≤ validMax (classify_all samples) := by
  have hub : ∀ j v, (classify_all samples).get? j = some (some v) →
      v ≤ validMax (classify_all samples) := by
    intro j v hj
    exact le_foldr_max _ v ((mem_filterMap_id _ v).mpr ⟨j, hj⟩)
  have hpos : ∀ v ∈ (classify_all samples).filterMap id, 0 ≤ v := by
    intro v hv
    rcases (mem_filterMap_id _ v).mp hv with ⟨j, hj⟩
    exact classify_all_nonneg samples j v hj
  refine ⟨?_, hub, ?_⟩
  · rcases h with ⟨j, v, hj⟩
    have hne : (classify_all samples).filterMap id ≠ [] := by
      intro hnil
      have : v ∈ (classify_all samples).filterMap id :=
        (mem_filterMap_id _ v).mpr ⟨j, hj⟩
      rw [hnil] at this
      cases this
    have hm := foldr_max_mem _ hne hpos
    rcases (mem_filterMap_id _ _).mp hm with ⟨k, hk⟩
    exact ⟨k, validMax (classify_all samples), hk, rfl⟩
  · intro x hx
    rcases (mem_fill _ x).mp hx with ⟨i, _, hE⟩
    rw [← hE]
    constructor
    · exact fillEntry_nonneg _ i (classify_all_nonneg samples)
    · exact fillEntry_le _ i _ (foldr_max_nonneg _) hub

/-- C10 witness: the samples `[100, error, 130]` classify to
`[Valid 100, Invalid, Valid 130]`, the interpolated middle entry `115`
lies between `0` and the maximum valid value `130`. -/
theorem fill_bounded_by_validMax_witness :
    0 ≤ (115 : ℚ) ∧
    (115 : ℚ) ≤ validMax (classify_all
      [SampleResult.ok (some 100), SampleResult.err, SampleResult.ok (some 130)]) := by
  have h := fill_bounded_by_validMax
    [SampleResult.ok (some 100), SampleResult.err, SampleResult.ok (some 130)]
    ⟨0, 100, by rfl⟩
  refine h.2.2 115 ?_
  show (115 : ℚ) ∈ fill [some 100, none, some 130]
  have : fill [some 100, none, some 130] = [100, 115, 130] := by
    norm_num [fill, fillEntry, fillValue, findPrev, findNext, firstValid,
      List.range_succ]
  rw [this]
  norm_num

end Strekoza
